import Mathlib

/-!
Verification of the Work-Chat-Project client and hub contract.

The definitions below are a shallow embedding of the repository's code:

* `src/static/client.js` — history-line parsing (`renderHistoryLine`), the
  WebSocket message handler (`ws.onmessage`), message sending
  (`sendBtn.onclick`), room switching (`roomSelect.onchange`), the day
  separator (`addDaySeparator`), connection-URL construction (`connectWS`),
  and the startup/session flow (`fetchSession`).
* The server-side connection hub (`server.py`) is not part of the visible
  sources; where a property depends on it, a definition is modelled from the
  specification and marked as such in its doc comment.

The two history-line regular expressions of `renderHistoryLine` are embedded
as explicit backtracking matchers over `List Char`, following JavaScript
regex semantics (lazy star tries shortest first, greedy plus tries longest
first, `.` excludes line terminators, `\s` is the JS whitespace set).
-/

namespace WorkChat

/-- JS line terminators (the characters `.` does not match): LF, CR, LS, PS. -/
def isLineTerm (c : Char) : Bool :=
  let n := c.toNat
  n = 0x0a || n = 0x0d || n = 0x2028 || n = 0x2029

/-- A character matched by `.` in a JS regex without the dotAll flag. -/
def isDotChar (c : Char) : Bool :=
  !(isLineTerm c)

/-- The JS whitespace class: characters matched by `\s` (identical to the set
removed by `String.prototype.trim`). -/
def isJsWs (c : Char) : Bool :=
  let n := c.toNat
  n = 0x20 || n = 0x09 || n = 0x0a || n = 0x0b || n = 0x0c || n = 0x0d ||
  n = 0xa0 || n = 0x1680 || (decide (0x2000 ≤ n) && decide (n ≤ 0x200a)) ||
  n = 0x2028 || n = 0x2029 || n = 0x202f || n = 0x205f || n = 0x3000 ||
  n = 0xfeff

/-- Matcher for a single literal character followed by a continuation. -/
def litThen {α : Type} (lit : Char) (inner : List Char → Option α) :
    List Char → Option α
  | [] => none
  | c :: r => if c = lit then inner r else none

/-- Greedy `X+` (one or more characters of class `p`) followed by a
continuation, with JS backtracking order (longest capture first), returning
the capture. -/
def greedyClassThen {α : Type} (p : Char → Bool) (k : List Char → Option α) :
    List Char → Option (List Char × α)
  | [] => none
  | c :: rest =>
    if p c then
      match greedyClassThen p k rest with
      | some (cap, a) => some (c :: cap, a)
      | none =>
        match k rest with
        | some a => some ([c], a)
        | none => none
    else none

/-- Greedy `\s+` followed by a continuation, with JS backtracking order; the
whitespace run is not captured. -/
def greedySpacesThen {α : Type} (k : List Char → Option α) :
    List Char → Option α
  | [] => none
  | c :: rest =>
    if isJsWs c then
      match greedySpacesThen k rest with
      | some a => some a
      | none => k rest
    else none

/-- Lazy `(.*?)` followed by a continuation: tries the continuation at the
current position first, extending the capture one `.`-character at a time. -/
def lazyDotThen {α : Type} (k : List Char → Option α) :
    List Char → Option (List Char × α)
  | [] =>
    match k [] with
    | some a => some ([], a)
    | none => none
  | c :: rest =>
    match k (c :: rest) with
    | some a => some ([], a)
    | none =>
      if isDotChar c then
        match lazyDotThen k rest with
        | some (cap, a) => some (c :: cap, a)
        | none => none
      else none

/-- Final `(.*)$`: matches (and captures) the rest of the input provided it
contains no line terminator. -/
def tailDotStar (s : List Char) : Option (List Char) :=
  if s.all isDotChar then some s else none

/-- The part `\s+(.*)$` shared by both history-line regexes. -/
def spacesTail : List Char → Option (List Char) :=
  greedySpacesThen tailDotStar

/-- The part `([^:]+):\s+(.*)$` of the new-format regex, entered after the
literal pipe: captures the email and the text. -/
def newAfterPipe : List Char → Option (List Char × List Char) :=
  greedyClassThen (fun c => c != ':') (litThen ':' spacesTail)

/-- The part `\s+([^|]+)\|([^:]+):\s+(.*)$` of the new-format regex, entered
after the closing bracket: captures name, email and text. -/
def newAfterBracket : List Char → Option (List Char × List Char × List Char) :=
  greedySpacesThen (greedyClassThen (fun c => c != '|') (litThen '|' newAfterPipe))

/-- The part `\s+([^:]+):\s+(.*)$` of the legacy-format regex, entered after
the closing bracket: captures name and text. -/
def oldAfterBracket : List Char → Option (List Char × List Char) :=
  greedySpacesThen (greedyClassThen (fun c => c != ':') (litThen ':' spacesTail))

/-- The new-format regex of `renderHistoryLine` in `src/static/client.js`:
`^\[(.*?)\]\s+([^|]+)\|([^:]+):\s+(.*)$`, returning the captures
(timestamp, name, email, text). -/
def matchNewL : List Char → Option (List Char × List Char × List Char × List Char)
  | [] => none
  | c :: rest =>
    if c = '[' then lazyDotThen (litThen ']' newAfterBracket) rest else none

/-- The legacy-format regex of `renderHistoryLine` in `src/static/client.js`:
`^\[(.*?)\]\s+([^:]+):\s+(.*)$`, returning the captures
(timestamp, name, text). -/
def matchOldL : List Char → Option (List Char × List Char × List Char)
  | [] => none
  | c :: rest =>
    if c = '[' then lazyDotThen (litThen ']' oldAfterBracket) rest else none

/-- Result of parsing one history line. -/
structure ParsedLine where
  dateStr : String
  name : String
  email : Option String
  text : String
deriving DecidableEq

/-- The parsing logic of `renderHistoryLine`: try the new format first, then
the legacy format (email absent), otherwise fail. -/
def parseHistoryLine (t : String) : Option ParsedLine :=
  match matchNewL t.data with
  | some (ts, n, e, tx) =>
    some ⟨String.mk ts, String.mk n, some (String.mk e), String.mk tx⟩
  | none =>
    match matchOldL t.data with
    | some (ts, n, tx) => some ⟨String.mk ts, String.mk n, none, String.mk tx⟩
    | none => none

/-- The textual layout of a new-format history line,
`[<timestamp>] <name>|<email>: <text>` (spec section 3, HistoryLine). -/
def formatNewLine (ts name email text : String) : String :=
  "[" ++ ts ++ "] " ++ name ++ "|" ++ email ++ ": " ++ text

/-- The textual layout of a legacy history line, `[<timestamp>] <name>: <text>`. -/
def formatLegacyLine (ts name text : String) : String :=
  "[" ++ ts ++ "] " ++ name ++ ": " ++ text

theorem data_append (a b : String) : (a ++ b).data = a.data ++ b.data := by
  cases a; cases b; rfl

theorem mk_data (s : String) : String.mk s.data = s := by
  cases s; rfl

theorem greedySpacesThen_cons {α : Type} (k : List Char → Option α)
    (c : Char) (l : List Char) :
    greedySpacesThen k (c :: l) =
      if isJsWs c then
        match greedySpacesThen k l with
        | some a => some a
        | none => k l
      else none := rfl

theorem greedyClassThen_cons {α : Type} (p : Char → Bool)
    (k : List Char → Option α) (c : Char) (l : List Char) :
    greedyClassThen p k (c :: l) =
      if p c then
        match greedyClassThen p k l with
        | some (cap, a) => some (c :: cap, a)
        | none =>
          match k l with
          | some a => some ([c], a)
          | none => none
      else none := rfl

theorem greedySpacesThen_stop {α : Type} (k : List Char → Option α)
    (rest : List Char) (h : ∀ c cs, rest = c :: cs → isJsWs c = false) :
    greedySpacesThen k rest = none := by
  cases rest with
  | nil => rfl
  | cons c cs => simp [greedySpacesThen, h c cs rfl]

theorem greedySpacesThen_exact {α : Type} (k : List Char → Option α)
    (sp rest : List Char) (a : α)
    (h0 : sp ≠ []) (h1 : ∀ c ∈ sp, isJsWs c = true)
    (h2 : ∀ c cs, rest = c :: cs → isJsWs c = false)
    (hk : k rest = some a) :
    greedySpacesThen k (sp ++ rest) = some a := by
  induction sp with
  | nil => exact absurd rfl h0
  | cons c cs ih =>
    have hc : isJsWs c = true := h1 c (by simp)
    cases cs with
    | nil =>
      have hstop := greedySpacesThen_stop k rest h2
      simp [greedySpacesThen, hc, hstop, hk]
    | cons d ds =>
      have hrec := ih (by simp) (fun x hx => h1 x (by simp [hx]))
      simp only [List.cons_append] at hrec ⊢
      rw [greedySpacesThen_cons, if_pos hc, hrec]

theorem greedyClassThen_stop {α : Type} (p : Char → Bool)
    (k : List Char → Option α) (rest : List Char)
    (h : ∀ c cs, rest = c :: cs → p c = false) :
    greedyClassThen p k rest = none := by
  cases rest with
  | nil => rfl
  | cons c cs => simp [greedyClassThen, h c cs rfl]

theorem greedyClassThen_exact {α : Type} (p : Char → Bool)
    (k : List Char → Option α) (cap rest : List Char) (a : α)
    (h0 : cap ≠ []) (h1 : ∀ c ∈ cap, p c = true)
    (h2 : ∀ c cs, rest = c :: cs → p c = false)
    (hk : k rest = some a) :
    greedyClassThen p k (cap ++ rest) = some (cap, a) := by
  induction cap with
  | nil => exact absurd rfl h0
  | cons c cs ih =>
    have hc : p c = true := h1 c (by simp)
    cases cs with
    | nil =>
      have hstop := greedyClassThen_stop p k rest h2
      simp [greedyClassThen, hc, hstop, hk]
    | cons d ds =>
      have hrec := ih (by simp) (fun x hx => h1 x (by simp [hx]))
      simp only [List.cons_append] at hrec ⊢
      rw [greedyClassThen_cons, if_pos hc, hrec]

theorem lazyDotThen_litBracket_exact {α : Type} (inner : List Char → Option α)
    (ts rest : List Char) (a : α)
    (h1 : ∀ c ∈ ts, isDotChar c = true)
    (h2 : ∀ c ∈ ts, c ≠ ']')
    (hk : inner rest = some a) :
    lazyDotThen (litThen ']' inner) (ts ++ ']' :: rest) = some (ts, a) := by
  induction ts with
  | nil => simp [lazyDotThen, litThen, hk]
  | cons c cs ih =>
    have hc1 : isDotChar c = true := h1 c (by simp)
    have hc2 : c ≠ ']' := h2 c (by simp)
    have hrec := ih (fun x hx => h1 x (by simp [hx])) (fun x hx => h2 x (by simp [hx]))
    simp [lazyDotThen, litThen, hc1, hc2, hrec]

theorem litThen_none {α : Type} (lit : Char) (inner : List Char → Option α)
    (Q : Char → Prop) (s : List Char)
    (hs : ∀ c ∈ s, Q c)
    (hlit : ∀ c, Q c → c ≠ lit) :
    litThen lit inner s = none := by
  cases s with
  | nil => rfl
  | cons c cs =>
    have : c ≠ lit := hlit c (hs c (by simp))
    simp [litThen, this]

theorem greedyClassThen_none {α : Type} (p : Char → Bool)
    (k : List Char → Option α) (Q : Char → Prop) (s : List Char)
    (hs : ∀ c ∈ s, Q c)
    (hk : ∀ t : List Char, (∀ c ∈ t, Q c) → k t = none) :
    greedyClassThen p k s = none := by
  induction s with
  | nil => rfl
  | cons c cs ih =>
    have hrec := ih (fun x hx => hs x (by simp [hx]))
    have hkc := hk cs (fun x hx => hs x (by simp [hx]))
    by_cases hp : p c = true
    · simp [greedyClassThen, hp, hrec, hkc]
    · simp [greedyClassThen, Bool.eq_false_iff.mpr hp]

theorem greedySpacesThen_none {α : Type} (k : List Char → Option α)
    (Q : Char → Prop) (s : List Char)
    (hs : ∀ c ∈ s, Q c)
    (hk : ∀ t : List Char, (∀ c ∈ t, Q c) → k t = none) :
    greedySpacesThen k s = none := by
  induction s with
  | nil => rfl
  | cons c cs ih =>
    have hrec := ih (fun x hx => hs x (by simp [hx]))
    have hkc := hk cs (fun x hx => hs x (by simp [hx]))
    by_cases hw : isJsWs c = true
    · simp [greedySpacesThen, hw, hrec, hkc]
    · simp [greedySpacesThen, Bool.eq_false_iff.mpr hw]

theorem lazyDotThen_none {α : Type} (k : List Char → Option α)
    (Q : Char → Prop) (s : List Char)
    (hs : ∀ c ∈ s, Q c)
    (hk : ∀ t : List Char, (∀ c ∈ t, Q c) → k t = none) :
    lazyDotThen k s = none := by
  induction s with
  | nil => simp [lazyDotThen, hk [] (by simp)]
  | cons c cs ih =>
    have hrec := ih (fun x hx => hs x (by simp [hx]))
    have hkc := hk (c :: cs) hs
    by_cases hd : isDotChar c = true
    · simp [lazyDotThen, hkc, hd, hrec]
    · simp [lazyDotThen, hkc, Bool.eq_false_iff.mpr hd]

/-- On an input containing no pipe character, the new-format regex fails. -/
theorem matchNewL_none_of_noPipe (s : List Char)
    (hs : ∀ c ∈ s, c ≠ '|') : matchNewL s = none := by
  have hpipe : ∀ t : List Char, (∀ c ∈ t, c ≠ '|') →
      litThen '|' newAfterPipe t = none := by
    intro t ht
    exact litThen_none '|' newAfterPipe (fun c => c ≠ '|') t ht (fun c h => h)
  have hcls : ∀ t : List Char, (∀ c ∈ t, c ≠ '|') →
      greedyClassThen (fun c => c != '|') (litThen '|' newAfterPipe) t = none := by
    intro t ht
    exact greedyClassThen_none _ _ (fun c => c ≠ '|') t ht hpipe
  have hbr : ∀ t : List Char, (∀ c ∈ t, c ≠ '|') → newAfterBracket t = none := by
    intro t ht
    exact greedySpacesThen_none _ (fun c => c ≠ '|') t ht hcls
  have hlit : ∀ t : List Char, (∀ c ∈ t, c ≠ '|') →
      litThen ']' newAfterBracket t = none := by
    intro t ht
    cases t with
    | nil => rfl
    | cons c cs =>
      by_cases hc : c = ']'
      · simp [litThen, hc, hbr cs (fun x hx => ht x (by simp [hx]))]
      · simp [litThen, hc]
  cases s with
  | nil => rfl
  | cons c cs =>
    by_cases hc : c = '['
    · simp only [matchNewL, hc, if_true]
      exact lazyDotThen_none _ (fun c => c ≠ '|') cs
        (fun x hx => hs x (by simp [hx])) hlit
    · simp [matchNewL, hc]

theorem matchNewL_format (ts name email text : List Char)
    (hts1 : ∀ c ∈ ts, isDotChar c = true) (hts2 : ∀ c ∈ ts, c ≠ ']')
    (hn0 : name ≠ []) (hn1 : ∀ c ∈ name, c ≠ '|')
    (hnw : ∀ c cs, name = c :: cs → isJsWs c = false)
    (he0 : email ≠ []) (he1 : ∀ c ∈ email, c ≠ ':')
    (htx1 : ∀ c ∈ text, isDotChar c = true)
    (htxw : ∀ c cs, text = c :: cs → isJsWs c = false) :
    matchNewL ('[' :: (ts ++ ']' :: ' ' ::
        (name ++ '|' :: (email ++ ':' :: ' ' :: text))))
      = some (ts, name, email, text) := by
  have htail : tailDotStar text = some text := by
    have : text.all isDotChar = true := by
      rw [List.all_eq_true]; exact fun x hx => htx1 x hx
    simp [tailDotStar, this]
  have h5 : spacesTail (' ' :: text) = some text := by
    have := greedySpacesThen_exact tailDotStar [' '] text text (by simp)
      (by intro c hc; simp at hc; subst hc; rfl) htxw htail
    simpa using this
  have h4 : litThen ':' spacesTail (':' :: ' ' :: text) = some text := by
    simp [litThen, h5]
  have h3 : newAfterPipe (email ++ ':' :: ' ' :: text) = some (email, text) := by
    refine greedyClassThen_exact _ _ email (':' :: ' ' :: text) text he0
      (fun c hc => by simp [bne_iff_ne]; exact he1 c hc) ?_ h4
    intro c cs heq
    cases heq
    simp
  have h2 : litThen '|' newAfterPipe ('|' :: (email ++ ':' :: ' ' :: text))
      = some (email, text) := by
    simp [litThen, h3]
  have h1 : greedyClassThen (fun c => c != '|') (litThen '|' newAfterPipe)
      (name ++ '|' :: (email ++ ':' :: ' ' :: text))
      = some (name, email, text) := by
    refine greedyClassThen_exact _ _ name ('|' :: (email ++ ':' :: ' ' :: text))
      (email, text) hn0
      (fun c hc => by simp [bne_iff_ne]; exact hn1 c hc) ?_ h2
    intro c cs heq
    cases heq
    simp
  have h0 : newAfterBracket (' ' :: (name ++ '|' :: (email ++ ':' :: ' ' :: text)))
      = some (name, email, text) := by
    have hw : ∀ c cs, (name ++ '|' :: (email ++ ':' :: ' ' :: text)) = c :: cs →
        isJsWs c = false := by
      cases name with
      | nil => exact absurd rfl hn0
      | cons n0 ntl =>
        intro c cs heq
        rw [List.cons_append] at heq
        cases heq
        exact hnw n0 ntl rfl
    have := greedySpacesThen_exact _ [' ']
      (name ++ '|' :: (email ++ ':' :: ' ' :: text)) (name, email, text)
      (by simp) (by intro c hc; simp at hc; subst hc; rfl) hw h1
    simpa [newAfterBracket] using this
  have hmain := lazyDotThen_litBracket_exact newAfterBracket ts
    (' ' :: (name ++ '|' :: (email ++ ':' :: ' ' :: text)))
    (name, email, text) hts1 hts2 h0
  simp only [matchNewL, if_pos rfl]
  exact hmain

theorem matchOldL_format (ts name text : List Char)
    (hts1 : ∀ c ∈ ts, isDotChar c = true) (hts2 : ∀ c ∈ ts, c ≠ ']')
    (hn0 : name ≠ []) (hn1 : ∀ c ∈ name, c ≠ ':')
    (hnw : ∀ c cs, name = c :: cs → isJsWs c = false)
    (htx1 : ∀ c ∈ text, isDotChar c = true)
    (htxw : ∀ c cs, text = c :: cs → isJsWs c = false) :
    matchOldL ('[' :: (ts ++ ']' :: ' ' :: (name ++ ':' :: ' ' :: text)))
      = some (ts, name, text) := by
  have htail : tailDotStar text = some text := by
    have : text.all isDotChar = true := by
      rw [List.all_eq_true]; exact fun x hx => htx1 x hx
    simp [tailDotStar, this]
  have h5 : spacesTail (' ' :: text) = some text := by
    have := greedySpacesThen_exact tailDotStar [' '] text text (by simp)
      (by intro c hc; simp at hc; subst hc; rfl) htxw htail
    simpa using this
  have h4 : litThen ':' spacesTail (':' :: ' ' :: text) = some text := by
    simp [litThen, h5]
  have h1 : greedyClassThen (fun c => c != ':') (litThen ':' spacesTail)
      (name ++ ':' :: ' ' :: text) = some (name, text) := by
    refine greedyClassThen_exact _ _ name (':' :: ' ' :: text) text hn0
      (fun c hc => by simp [bne_iff_ne]; exact hn1 c hc) ?_ h4
    intro c cs heq
    cases heq
    simp
  have h0 : oldAfterBracket (' ' :: (name ++ ':' :: ' ' :: text))
      = some (name, text) := by
    have hw : ∀ c cs, (name ++ ':' :: ' ' :: text) = c :: cs →
        isJsWs c = false := by
      cases name with
      | nil => exact absurd rfl hn0
      | cons n0 ntl =>
        intro c cs heq
        rw [List.cons_append] at heq
        cases heq
        exact hnw n0 ntl rfl
    have := greedySpacesThen_exact _ [' '] (name ++ ':' :: ' ' :: text)
      (name, text) (by simp) (by intro c hc; simp at hc; subst hc; rfl) hw h1
    simpa [oldAfterBracket] using this
  have hmain := lazyDotThen_litBracket_exact oldAfterBracket ts
    (' ' :: (name ++ ':' :: ' ' :: text)) (name, text) hts1 hts2 h0
  simp only [matchOldL, if_pos rfl]
  exact hmain

theorem formatNewLine_data (ts name email text : String) :
    (formatNewLine ts name email text).data =
      '[' :: (ts.data ++ ']' :: ' ' ::
        (name.data ++ '|' :: (email.data ++ ':' :: ' ' :: text.data))) := by
  simp [formatNewLine, data_append]

theorem formatLegacyLine_data (ts name text : String) :
    (formatLegacyLine ts name text).data =
      '[' :: (ts.data ++ ']' :: ' ' :: (name.data ++ ':' :: ' ' :: text.data)) := by
  simp [formatLegacyLine, data_append]

theorem headNotWs_of_take (l : List Char)
    (h : ∀ c ∈ l.take 1, isJsWs c = false) :
    ∀ c cs, l = c :: cs → isJsWs c = false := by
  intro c cs heq
  subst heq
  exact h c (by simp)

/-- The current user as delivered by the /session endpoint. -/
structure User where
  name : String
  email : String
  display_name : Option String
deriving DecidableEq

/-- One DOM item appended to the chat log: a system line (`logLine` with the
default type), a message bubble (`logLine` with type me/user, carrying the
name, text, timestamp and own-message flag), or a day separator. -/
inductive RenderItem
  | sys (text : String)
  | bubble (name text : String) (ts : Int) (me : Bool)
  | daySep (day : String)
deriving DecidableEq

/-- Environment-supplied functions the client calls out to:
`dayOf` is `new Date(ts*1000).toLocaleDateString("es-ES", ...)` and
`parseDate` is `new Date(dateStr).getTime() / 1000`. Both depend on the
browser locale and timezone, so they are abstract parameters here. -/
structure JsEnv where
  dayOf : Int → String
  parseDate : String → Int

/-- `addDaySeparator` of `src/static/client.js`: formats the day of `ts`;
when it differs from `lastDay`, a separator is appended and `lastDay` is
updated, otherwise nothing happens. Returns (appended items, new lastDay). -/
def addDaySeparator (dayOf : Int → String) (lastDay : Option String) (ts : Int) :
    List RenderItem × Option String :=
  let dayStr := dayOf ts
  if lastDay = some dayStr then ([], lastDay)
  else ([RenderItem.daySep dayStr], some dayStr)

/-- The own-message test of `renderHistoryLine`: compare by email when the
parsed line carried one, otherwise fall back to comparing names. -/
def selfIdent (email : Option String) (name : String) (u : User) : Bool :=
  match email with
  | some e => e == u.email
  | none => name == u.name

/-- `renderHistoryLine` of `src/static/client.js`: parse the line with the
new-format regex, then the legacy regex; on failure render the raw line as a
system message (no day separator); on success insert a day separator if the
day changed and render a bubble styled by the self-identification test. -/
def renderHistoryLine (env : JsEnv) (u : User) (lastDay : Option String)
    (t : String) : List RenderItem × Option String :=
  match parseHistoryLine t with
  | none => ([RenderItem.sys t], lastDay)
  | some pl =>
    let ts := env.parseDate pl.dateStr
    let sep := addDaySeparator env.dayOf lastDay ts
    ((sep.1 ++ [RenderItem.bubble pl.name pl.text ts (selfIdent pl.email pl.name u)]),
     sep.2)

theorem parseHistoryLine_new (ts name email text : String)
    (hts : ∀ c ∈ ts.data, isDotChar c = true ∧ c ≠ ']')
    (hn0 : name.data ≠ []) (hn1 : ∀ c ∈ name.data, c ≠ '|')
    (hnw : ∀ c ∈ name.data.take 1, isJsWs c = false)
    (he0 : email.data ≠ []) (he1 : ∀ c ∈ email.data, c ≠ ':')
    (htx : ∀ c ∈ text.data, isDotChar c = true)
    (htxw : ∀ c ∈ text.data.take 1, isJsWs c = false) :
    parseHistoryLine (formatNewLine ts name email text)
      = some ⟨ts, name, some email, text⟩ := by
  have hnew := matchNewL_format ts.data name.data email.data text.data
    (fun c hc => (hts c hc).1) (fun c hc => (hts c hc).2)
    hn0 hn1 (headNotWs_of_take _ hnw) he0 he1 htx (headNotWs_of_take _ htxw)
  unfold parseHistoryLine
  rw [formatNewLine_data, hnew]

theorem parseHistoryLine_legacy (ts name text : String)
    (hts : ∀ c ∈ ts.data, isDotChar c = true ∧ c ≠ ']' ∧ c ≠ '|')
    (hn0 : name.data ≠ []) (hn1 : ∀ c ∈ name.data, c ≠ ':' ∧ c ≠ '|')
    (hnw : ∀ c ∈ name.data.take 1, isJsWs c = false)
    (htx : ∀ c ∈ text.data, isDotChar c = true ∧ c ≠ '|')
    (htxw : ∀ c ∈ text.data.take 1, isJsWs c = false) :
    parseHistoryLine (formatLegacyLine ts name text)
      = some ⟨ts, name, none, text⟩ := by
  have hnpL : ∀ c ∈ ('[' :: (ts.data ++ ']' :: ' ' ::
      (name.data ++ ':' :: ' ' :: text.data))), c ≠ '|' := by
    intro c hc
    rcases List.mem_cons.mp hc with rfl | hc2
    · decide
    rcases List.mem_append.mp hc2 with hm | hc3
    · exact (hts c hm).2.2
    rcases List.mem_cons.mp hc3 with rfl | hc4
    · decide
    rcases List.mem_cons.mp hc4 with rfl | hc5
    · decide
    rcases List.mem_append.mp hc5 with hm | hc6
    · exact (hn1 c hm).2
    rcases List.mem_cons.mp hc6 with rfl | hc7
    · decide
    rcases List.mem_cons.mp hc7 with rfl | hc8
    · decide
    exact (htx c hc8).2
  have hnew := matchNewL_none_of_noPipe _ hnpL
  have hold := matchOldL_format ts.data name.data text.data
    (fun c hc => (hts c hc).1) (fun c hc => (hts c hc).2.1)
    hn0 (fun c hc => (hn1 c hc).1) (headNotWs_of_take _ hnw)
    (fun c hc => (htx c hc).1) (headNotWs_of_take _ htxw)
  unfold parseHistoryLine
  rw [formatLegacyLine_data, hnew, hold]

/-- C1 (amended): a well-formed new-format history line
`[<timestamp>] <name>|<email>: <text>` — timestamp without a closing bracket
or line terminator, name nonempty without a pipe and not starting with
whitespace, email nonempty without a colon, text without a line terminator
and not starting with whitespace — parses back to exactly that name, email
and text; and a legacy line `[<timestamp>] <name>: <text>` that does not
also match the new `name|email:` shape (in particular, none of its parts
contains a pipe) parses with email absent, and own-message styling then
falls back to comparing the parsed name with the current user's name. -/
theorem histLine_roundTrip_amended (u : User) :
    (∀ ts name email text : String,
      (∀ c ∈ ts.data, isDotChar c = true ∧ c ≠ ']') →
      name.data ≠ [] → (∀ c ∈ name.data, c ≠ '|') →
      (∀ c ∈ name.data.take 1, isJsWs c = false) →
      email.data ≠ [] → (∀ c ∈ email.data, c ≠ ':') →
      (∀ c ∈ text.data, isDotChar c = true) →
      (∀ c ∈ text.data.take 1, isJsWs c = false) →
      parseHistoryLine (formatNewLine ts name email text)
        = some ⟨ts, name, some email, text⟩) ∧
    (∀ (env : JsEnv) (ld : Option String) (ts name text : String),
      (∀ c ∈ ts.data, isDotChar c = true ∧ c ≠ ']' ∧ c ≠ '|') →
      name.data ≠ [] → (∀ c ∈ name.data, c ≠ ':' ∧ c ≠ '|') →
      (∀ c ∈ name.data.take 1, isJsWs c = false) →
      (∀ c ∈ text.data, isDotChar c = true ∧ c ≠ '|') →
      (∀ c ∈ text.data.take 1, isJsWs c = false) →
      parseHistoryLine (formatLegacyLine ts name text)
          = some ⟨ts, name, none, text⟩ ∧
      renderHistoryLine env u ld (formatLegacyLine ts name text) =
        ((addDaySeparator env.dayOf ld (env.parseDate ts)).1 ++
          [RenderItem.bubble name text (env.parseDate ts) (name == u.name)],
         (addDaySeparator env.dayOf ld (env.parseDate ts)).2)) := by
  constructor
  · intro ts name email text hts hn0 hn1 hnw he0 he1 htx htxw
    exact parseHistoryLine_new ts name email text hts hn0 hn1 hnw he0 he1 htx htxw
  · intro env ld ts name text hts hn0 hn1 hnw htx htxw
    have hp := parseHistoryLine_legacy ts name text hts hn0 hn1 hnw htx htxw
    refine ⟨hp, ?_⟩
    unfold renderHistoryLine
    rw [hp]
    rfl

/-- C1 counterexample: the legacy-form line
`[2025-11-20 19:03:56] Bob: tip|note: hola` (timestamp, name `Bob`,
text `tip|note: hola`, no email segment) is captured by the new-format
regex first, so the parser reports name `Bob: tip`, email `note` and text
`hola` — the email is not absent, contradicting the claim for legacy lines. -/
theorem legacyLine_email_counterexample :
    parseHistoryLine (formatLegacyLine "2025-11-20 19:03:56" "Bob" "tip|note: hola")
        = some ⟨"2025-11-20 19:03:56", "Bob: tip", some "note", "hola"⟩ ∧
    parseHistoryLine (formatLegacyLine "2025-11-20 19:03:56" "Bob" "tip|note: hola")
        ≠ some ⟨"2025-11-20 19:03:56", "Bob", none, "tip|note: hola"⟩ := by
  constructor
  · decide
  · decide

/-- C1 witness: the two example lines from the specification, parsed via the
amended round-trip theorem. -/
theorem histLine_roundTrip_amended_witness :
    parseHistoryLine "[2025-11-20 19:03:56] Gabriel|g@x.com: hola"
      = some ⟨"2025-11-20 19:03:56", "Gabriel", some "g@x.com", "hola"⟩ ∧
    parseHistoryLine "[2025-11-20 19:03:56] Gabriel: hola"
      = some ⟨"2025-11-20 19:03:56", "Gabriel", none, "hola"⟩ := by
  have hnew := (histLine_roundTrip_amended ⟨"Gabriel", "g@x.com", none⟩).1
    "2025-11-20 19:03:56" "Gabriel" "g@x.com" "hola"
    (by decide) (by decide) (by decide) (by decide) (by decide) (by decide)
    (by decide) (by decide)
  have hold := ((histLine_roundTrip_amended ⟨"Gabriel", "g@x.com", none⟩).2
    ⟨fun _ => "", fun _ => 0⟩ none "2025-11-20 19:03:56" "Gabriel" "hola"
    (by decide) (by decide) (by decide) (by decide) (by decide) (by decide)).1
  have heqn : formatNewLine "2025-11-20 19:03:56" "Gabriel" "g@x.com" "hola"
      = "[2025-11-20 19:03:56] Gabriel|g@x.com: hola" := rfl
  have heql : formatLegacyLine "2025-11-20 19:03:56" "Gabriel" "hola"
      = "[2025-11-20 19:03:56] Gabriel: hola" := rfl
  rw [heqn] at hnew
  rw [heql] at hold
  exact ⟨hnew, hold⟩

/-- JS `String.prototype.trim` on the front of a character list. -/
def trimStartWs : List Char → List Char
  | [] => []
  | c :: r => if isJsWs c then trimStartWs r else c :: r

/-- JS `String.prototype.trim`: removes leading and trailing JS whitespace. -/
def jsTrim (s : String) : String :=
  String.mk ((trimStartWs (trimStartWs s.data).reverse).reverse)

/-- The click handler `sendBtn.onclick` of `src/static/client.js`: trim the
input; if the trimmed text is empty do nothing at all; if the socket is not
open log a system line; otherwise send a frame carrying the trimmed text and
clear the input box. Returns (frame sent, items appended to the chat,
resulting input-box value). -/
def sendClick (inputVal : String) (wsOpen : Bool) :
    Option String × List RenderItem × String :=
  let text := jsTrim inputVal
  if text = "" then (none, [], inputVal)
  else if wsOpen = false then
    (none, [RenderItem.sys "WebSocket no conectado."], inputVal)
  else (some text, [], "")

/-- C3: an input that trims to the empty string is dropped by the send
handler: no frame is transmitted, nothing is rendered or surfaced to the
sender, and the input box keeps its value — whatever the socket state. -/
theorem emptyInput_sendsNothing (inputVal : String) (wsOpen : Bool)
    (h : jsTrim inputVal = "") :
    sendClick inputVal wsOpen = (none, [], inputVal) := by
  simp [sendClick, h]

/-- C3 witness: a whitespace-only input is dropped even on an open socket. -/
theorem emptyInput_sendsNothing_witness :
    jsTrim "   " = "" ∧ sendClick "   " true = (none, [], "   ") := by
  have h : jsTrim "   " = "" := by decide
  exact ⟨h, emptyInput_sendsNothing "   " true h⟩

/-- Outcome of the `/session` request as observed by `fetchSession` in
`src/static/client.js`: an HTTP 401, a network failure, a body that is not
valid JSON, or a JSON body carrying the session id and the user object. -/
inductive SessionResp
  | http401
  | netError
  | badJson
  | okJson (sid : String) (u : User)
deriving DecidableEq

/-- `fetchSession` of `src/static/client.js`: on 401 it clears session and
user and returns false; a network error or a JSON parse failure is caught
and returns false; otherwise session and user are stored and it returns
true. Returns the stored (session, user) on success. -/
def fetchSession : SessionResp → Option (String × User)
  | .http401 => none
  | .netError => none
  | .badJson => none
  | .okJson sid u => some (sid, u)

/-- The JS truthiness chain
`user.display_name || user.name || user.email || "usuario"`
(an empty string is falsy). -/
def displayLabel (u : User) : String :=
  let viaName := if u.name = "" then (if u.email = "" then "usuario" else u.email)
    else u.name
  match u.display_name with
  | some d => if d = "" then viaName else d
  | none => viaName

/-- The page state produced by the startup flow of `src/static/client.js`
after `/session` resolves. -/
structure StartupView where
  statusText : String
  logoutShown : Bool
  wsOpened : Bool
deriving DecidableEq

/-- Startup section 7 of `src/static/client.js`: when `fetchSession` fails
the status line is set, the logout button is hidden and the script returns
before `connectWS`; on success the status names the user, the logout button
is shown and `connectWS` runs. -/
def startup (r : SessionResp) : StartupView :=
  match fetchSession r with
  | none => ⟨"No autenticado", false, false⟩
  | some (_, u) => ⟨"Conectado como " ++ displayLabel u, true, true⟩

/-- C8: if the `/session` request returns 401, fails on the network, or has
a non-JSON body, the client opens no WebSocket, shows the status
`No autenticado` and hides the logout button. -/
theorem noSession_noWebSocket (r : SessionResp)
    (h : r = .http401 ∨ r = .netError ∨ r = .badJson) :
    startup r = ⟨"No autenticado", false, false⟩ ∧ (startup r).wsOpened = false := by
  rcases h with rfl | rfl | rfl <;> exact ⟨rfl, rfl⟩

/-- C8 witness: the 401 case. -/
theorem noSession_noWebSocket_witness :
    startup .http401 = ⟨"No autenticado", false, false⟩ ∧
      (startup .http401).wsOpened = false :=
  noSession_noWebSocket .http401 (Or.inl rfl)

/-- An inbound WebSocket frame after `JSON.parse`, as examined by
`ws.onmessage` in `src/static/client.js`; `other` covers objects whose
`type` is none of the four recognized discriminators. Frames that are not
valid JSON are represented by `none` at the call site. -/
inductive Frame
  | history (lines : List String)
  | join (u : User)
  | leave (u : User)
  | message (u : User) (text : String) (ts : Int)
  | other (ty : String)

/-- `ws.onmessage` of `src/static/client.js`: dispatch on the parsed frame.
Invalid JSON raises inside the try block and is swallowed; unknown types
fall through every branch. Returns (items appended to the chat, new lastDay
state, frames sent back to the server — the handler never sends any). -/
def onmessage (env : JsEnv) (u : User) (lastDay : Option String)
    (f : Option Frame) : List RenderItem × Option String × List String :=
  match f with
  | none => ([], lastDay, [])
  | some (.history lines) =>
    let out := lines.foldl
      (fun (acc : List RenderItem × Option String) t =>
        let r := renderHistoryLine env u acc.2 t
        (acc.1 ++ r.1, r.2)) ([], lastDay)
    (out.1, out.2, [])
  | some (.join us) => ([RenderItem.sys ("➡️ " ++ us.email ++ " se ha unido")], lastDay, [])
  | some (.leave us) => ([RenderItem.sys ("⬅️ " ++ us.email ++ " se ha ido")], lastDay, [])
  | some (.message us text ts) =>
    let sep := addDaySeparator env.dayOf lastDay ts
    (sep.1 ++ [RenderItem.bubble us.name text ts (us.email == u.email)], sep.2, [])
  | some (.other _) => ([], lastDay, [])

/-- C9: a history line matching neither regex is rendered verbatim as a
system message with no day separator and no change to the day state; an
inbound frame that is not valid JSON, or whose type is unrecognized,
renders nothing, changes nothing, and sends nothing to the server. -/
theorem unknown_input_ignored (env : JsEnv) (u : User) (ld : Option String)
    (t : String) (f : Option Frame)
    (ht : parseHistoryLine t = none)
    (hf : f = none ∨ ∃ ty, f = some (Frame.other ty)) :
    renderHistoryLine env u ld t = ([RenderItem.sys t], ld) ∧
      onmessage env u ld f = ([], ld, []) := by
  constructor
  · unfold renderHistoryLine
    rw [ht]
  · rcases hf with rfl | ⟨ty, rfl⟩ <;> rfl

/-- C9 witness: the line `hola sin formato` parses with neither regex, and a
frame of unknown type `ping` is ignored. -/
theorem unknown_input_ignored_witness :
    renderHistoryLine ⟨fun _ => "", fun _ => 0⟩ ⟨"a", "a@x", none⟩ none
        "hola sin formato" = ([RenderItem.sys "hola sin formato"], none) ∧
      onmessage ⟨fun _ => "", fun _ => 0⟩ ⟨"a", "a@x", none⟩ none
        (some (Frame.other "ping")) = ([], none, []) :=
  unknown_input_ignored ⟨fun _ => "", fun _ => 0⟩ ⟨"a", "a@x", none⟩ none
    "hola sin formato" (some (Frame.other "ping"))
    (by decide) (Or.inr ⟨"ping", rfl⟩)

/-- The characters `encodeURIComponent` leaves unescaped:
ASCII letters, digits, and `- _ . ! ~ * ' ( )`. -/
def isUnescapedURI (c : Char) : Bool :=
  c.isAlpha || c.isDigit || c = '-' || c = '_' || c = '.' || c = '!' ||
  c = '~' || c = '*' || c = '\'' || c = '(' || c = ')'

/-- Uppercase hexadecimal digit for a value below 16. -/
def hexDigitU (n : Nat) : Char :=
  if n < 10 then Char.ofNat (48 + n) else Char.ofNat (55 + n)

/-- Percent-encoding of one byte (the reductions modulo 16 are identities
for bytes and keep both digits in range). -/
def pctByte (b : Nat) : List Char :=
  ['%', hexDigitU (b / 16 % 16), hexDigitU (b % 16)]

/-- The UTF-8 bytes of one scalar value. -/
def utf8Bytes (c : Char) : List Nat :=
  let n := c.toNat
  if n < 0x80 then [n]
  else if n < 0x800 then [0xc0 + n / 0x40, 0x80 + n % 0x40]
  else if n < 0x10000 then
    [0xe0 + n / 0x1000, 0x80 + n / 0x40 % 0x40, 0x80 + n % 0x40]
  else
    [0xf0 + n / 0x40000, 0x80 + n / 0x1000 % 0x40, 0x80 + n / 0x40 % 0x40,
     0x80 + n % 0x40]

/-- JS `encodeURIComponent`: unescaped characters pass through, every other
character is replaced by the percent-encoding of its UTF-8 bytes. -/
def encodeURIComponent (s : String) : String :=
  String.mk (s.data.flatMap (fun c =>
    if isUnescapedURI c then [c] else (utf8Bytes c).flatMap pctByte))

/-- The WebSocket URL built by `connectWS` in `src/static/client.js`:
scheme from the page protocol, the page hostname, port 8765, and exactly
the query parameters `session_id` and `room`, both URL-encoded. -/
def wsUrl (https : Bool) (host session room : String) : String :=
  (if https then "wss" else "ws") ++ "://" ++ host ++ ":8765/?session_id=" ++
    encodeURIComponent session ++ "&room=" ++ encodeURIComponent room

/-- Everything after the first question mark of a URL. -/
def dropThroughQ : List Char → List Char
  | [] => []
  | c :: r => if c = '?' then r else dropThroughQ r

/-- Split a character list at every occurrence of `sep`. -/
def splitOnChar (sep : Char) : List Char → List (List Char)
  | [] => [[]]
  | c :: r =>
    if c = sep then [] :: splitOnChar sep r
    else
      match splitOnChar sep r with
      | a :: rest => (c :: a) :: rest
      | [] => [[c]]

/-- Split a character list at its first equals sign (key, value). -/
def firstEqSplit : List Char → List Char × List Char
  | [] => ([], [])
  | c :: r =>
    if c = '=' then ([], r)
    else
      let p := firstEqSplit r
      (c :: p.1, p.2)

/-- The query parameters of a URL as (key, value) pairs: the part after the
first question mark, split at ampersands, each segment split at its first
equals sign. -/
def queryParams (url : String) : List (String × String) :=
  (splitOnChar '&' (dropThroughQ url.data)).map
    (fun s => (String.mk (firstEqSplit s).1, String.mk (firstEqSplit s).2))

/-- First value bound to key `k` in an association list of parameters. -/
def lookupParam (k : String) : List (String × String) → Option String
  | [] => none
  | p :: r => if p.1 = k then some p.2 else lookupParam k r

/-- Modelled from the spec: the server-side handshake extraction (the hub in
`server.py` is not among the visible sources). The session token is taken
from the `session_id` query parameter, falling back to the legacy alias
`session`; the room is taken from the `room` parameter and defaults to
`default` when absent. -/
def extractHandshake (ps : List (String × String)) : Option String × String :=
  ((lookupParam "session_id" ps).orElse (fun _ => lookupParam "session" ps),
   (lookupParam "room" ps).getD "default")

theorem dropThroughQ_append (a b : List Char) (h : ∀ c ∈ a, c ≠ '?') :
    dropThroughQ (a ++ '?' :: b) = b := by
  induction a with
  | nil => simp [dropThroughQ]
  | cons c cs ih =>
    have hc : c ≠ '?' := h c (by simp)
    simp [dropThroughQ, hc, ih (fun x hx => h x (by simp [hx]))]

theorem splitOnChar_noSep (sep : Char) (a : List Char)
    (h : ∀ c ∈ a, c ≠ sep) : splitOnChar sep a = [a] := by
  induction a with
  | nil => rfl
  | cons c cs ih =>
    have hc : c ≠ sep := h c (by simp)
    simp [splitOnChar, hc, ih (fun x hx => h x (by simp [hx]))]

theorem splitOnChar_append_noSep (sep : Char) (a b : List Char)
    (h : ∀ c ∈ a, c ≠ sep) :
    splitOnChar sep (a ++ sep :: b) = a :: splitOnChar sep b := by
  induction a with
  | nil => simp [splitOnChar]
  | cons c cs ih =>
    have hc : c ≠ sep := h c (by simp)
    simp [splitOnChar, hc, ih (fun x hx => h x (by simp [hx]))]

theorem firstEqSplit_append (a b : List Char) (h : ∀ c ∈ a, c ≠ '=') :
    firstEqSplit (a ++ '=' :: b) = (a, b) := by
  induction a with
  | nil => simp [firstEqSplit]
  | cons c cs ih =>
    have hc : c ≠ '=' := h c (by simp)
    simp [firstEqSplit, hc, ih (fun x hx => h x (by simp [hx]))]

theorem hexDigitU_safe (n : Nat) (h : n < 16) :
    hexDigitU n ≠ '&' ∧ hexDigitU n ≠ '=' ∧ hexDigitU n ≠ '?' := by
  interval_cases n <;> exact ⟨by decide, by decide, by decide⟩

/-- No output character of `encodeURIComponent` is an ampersand, an equals
sign or a question mark: those are always percent-escaped. -/
theorem encodeURIComponent_safe (s : String) :
    ∀ c ∈ (encodeURIComponent s).data, c ≠ '&' ∧ c ≠ '=' ∧ c ≠ '?' := by
  intro c hc
  simp only [encodeURIComponent] at hc
  rw [List.mem_flatMap] at hc
  obtain ⟨x, _, hx⟩ := hc
  by_cases hu : isUnescapedURI x = true
  · rw [if_pos hu] at hx
    simp at hx
    subst hx
    refine ⟨?_, ?_, ?_⟩ <;> (intro heq; subst heq; revert hu; decide)
  · rw [if_neg hu] at hx
    rw [List.mem_flatMap] at hx
    obtain ⟨b, _, hb⟩ := hx
    simp only [pctByte] at hb
    rcases List.mem_cons.mp hb with rfl | hb2
    · exact ⟨by decide, by decide, by decide⟩
    rcases List.mem_cons.mp hb2 with rfl | hb3
    · exact hexDigitU_safe _ (Nat.mod_lt _ (by decide))
    rcases List.mem_cons.mp hb3 with rfl | hb4
    · exact hexDigitU_safe _ (Nat.mod_lt _ (by decide))
    · exact absurd hb4 (List.not_mem_nil c)

theorem queryParams_build (proto host session room : String)
    (hp : ∀ c ∈ proto.data, c ≠ '?') (hq : ∀ c ∈ host.data, c ≠ '?') :
    queryParams (proto ++ "://" ++ host ++ ":8765/?session_id=" ++
        encodeURIComponent session ++ "&room=" ++ encodeURIComponent room) =
      [("session_id", encodeURIComponent session),
       ("room", encodeURIComponent room)] := by
  have hdata : (proto ++ "://" ++ host ++ ":8765/?session_id=" ++
      encodeURIComponent session ++ "&room=" ++ encodeURIComponent room).data =
      (proto.data ++ ':' :: '/' :: '/' ::
        (host.data ++ [':', '8', '7', '6', '5', '/'])) ++ '?' ::
      (("session_id".data ++ '=' :: (encodeURIComponent session).data) ++ '&' ::
        ("room".data ++ '=' :: (encodeURIComponent room).data)) := by
    simp [data_append]
  have hpre : ∀ c ∈ (proto.data ++ ':' :: '/' :: '/' ::
      (host.data ++ [':', '8', '7', '6', '5', '/'])), c ≠ '?' := by
    intro c hc
    rcases List.mem_append.mp hc with hm | hc2
    · exact hp c hm
    rcases List.mem_cons.mp hc2 with rfl | hc3
    · decide
    rcases List.mem_cons.mp hc3 with rfl | hc4
    · decide
    rcases List.mem_cons.mp hc4 with rfl | hc5
    · decide
    rcases List.mem_append.mp hc5 with hm | hc6
    · exact hq c hm
    have htail : ∀ x ∈ ([':', '8', '7', '6', '5', '/'] : List Char), x ≠ '?' := by
      decide
    exact htail c hc6
  have hsid : ∀ x ∈ ("session_id" : String).data, x ≠ '&' := by decide
  have hroomLit : ∀ x ∈ ("room" : String).data, x ≠ '&' := by decide
  have hs1 : ∀ c ∈ ("session_id".data ++ '=' :: (encodeURIComponent session).data),
      c ≠ '&' := by
    intro c hc
    rcases List.mem_append.mp hc with hm | hc2
    · exact hsid c hm
    rcases List.mem_cons.mp hc2 with rfl | hc3
    · decide
    · exact (encodeURIComponent_safe session c hc3).1
  have hs2 : ∀ c ∈ ("room".data ++ '=' :: (encodeURIComponent room).data),
      c ≠ '&' := by
    intro c hc
    rcases List.mem_append.mp hc with hm | hc2
    · exact hroomLit c hm
    rcases List.mem_cons.mp hc2 with rfl | hc3
    · decide
    · exact (encodeURIComponent_safe room c hc3).1
  have hk1 : ∀ c ∈ ("session_id" : String).data, c ≠ '=' := by decide
  have hk2 : ∀ c ∈ ("room" : String).data, c ≠ '=' := by decide
  unfold queryParams
  rw [hdata, dropThroughQ_append _ _ hpre,
    splitOnChar_append_noSep '&' _ _ hs1, splitOnChar_noSep '&' _ hs2]
  simp only [List.map]
  rw [firstEqSplit_append _ _ hk1, firstEqSplit_append _ _ hk2]

/-- One WebSocket object created by `connectWS`: its identity, the room it
was opened for (fixed at creation), and whether it is still open. -/
structure ClientConn where
  id : Nat
  room : String
  isOpen : Bool
deriving DecidableEq

/-- The local state of `src/static/client.js`: the page location pieces used
to build the URL, the mutable variables `room`, `session`, `user`, `ws`
(`active` is the id of the object the variable points to, `conns` the
objects created so far), the `lastDay` separator state, the chat DOM, the
input box, and the frames sent so far. -/
structure ClientState where
  https : Bool
  host : String
  room : String
  session : Option String
  user : Option User
  conns : List ClientConn
  active : Option Nat
  nextId : Nat
  chat : List RenderItem
  lastDay : Option String
  inputVal : String
  outbox : List String
deriving DecidableEq

/-- The initial client state: `room` starts as `default` (line 49 of
`src/static/client.js`), nothing rendered, no socket, no session yet. -/
def initClient (https : Bool) (host : String) : ClientState :=
  { https := https, host := host, room := "default", session := none,
    user := none, conns := [], active := none, nextId := 0, chat := [],
    lastDay := none, inputVal := "", outbox := [] }

/-- `connectWS` of `src/static/client.js`: log the connecting line and open
a fresh WebSocket to the current room; the `ws` variable now points to the
new object. A null session interpolates as the string `null`, as in JS. -/
def connectWS (st : ClientState) : ClientState :=
  let url := wsUrl st.https st.host (st.session.getD "null") st.room
  { st with
    chat := st.chat ++ [RenderItem.sys ("Conectando a " ++ url)],
    conns := st.conns ++ [⟨st.nextId, st.room, true⟩],
    active := some st.nextId,
    nextId := st.nextId + 1 }

/-- `ws.close()` guarded by `if (ws)`: mark the object the `ws` variable
points to as closed; the variable keeps pointing at it. -/
def closeConnList (conns : List ClientConn) (cid : Nat) : List ClientConn :=
  conns.map (fun c => if c.id = cid then ⟨c.id, c.room, false⟩ else c)

def closeWs (st : ClientState) : ClientState :=
  match st.active with
  | none => st
  | some cid => { st with conns := closeConnList st.conns cid }

/-- `roomSelect.onchange` of `src/static/client.js`: set the new room, wipe
the chat DOM, close the current socket if any, and reconnect when a session
exists. `lastDay` is not touched. -/
def changeRoom (st : ClientState) (r : String) : ClientState :=
  let st1 := closeWs { st with room := r, chat := [] }
  if st1.session.isSome then connectWS st1 else st1

/-- Whether the `ws` variable points to an open socket (`ws &&
ws.readyState === WebSocket.OPEN`). -/
def activeOpen (st : ClientState) : Bool :=
  match st.active with
  | none => false
  | some cid => st.conns.any (fun c => c.id = cid && c.isOpen)

/-- The send button handler lifted to the client state: frames go to the
outbox, log lines to the chat, and the input box is updated. -/
def clickSendSt (st : ClientState) : ClientState :=
  let r := sendClick st.inputVal (activeOpen st)
  { st with chat := st.chat ++ r.2.1, inputVal := r.2.2,
            outbox := st.outbox ++ r.1.toList }

/-- `ws.onmessage` lifted to the client state (the handler reads the `user`
variable, set before any socket exists). -/
def recvFrame (env : JsEnv) (st : ClientState) (f : Option Frame) : ClientState :=
  match st.user with
  | none => st
  | some u =>
    let r := onmessage env u st.lastDay f
    { st with chat := st.chat ++ r.1, lastDay := r.2.1 }

/-- The user-visible events of the client loop. -/
inductive ClientAction
  | selectRoom (r : String)
  | typeInput (v : String)
  | pressSend
  | recv (f : Option Frame)

/-- One step of the client: dispatch an event to its handler. -/
def stepClient (env : JsEnv) (a : ClientAction) (st : ClientState) : ClientState :=
  match a with
  | .selectRoom r => changeRoom st r
  | .typeInput v => { st with inputVal := v }
  | .pressSend => clickSendSt st
  | .recv f => recvFrame env st f

/-- C4: the connection URL built by `connectWS` carries exactly the query
parameters `session_id` (the URL-encoded session value) and `room`
(URL-encoded); the client's room is `default` initially and changes only
through room selection; and the spec-modelled handshake extraction accepts
`session_id` or the legacy alias `session`, with the room defaulting to
`default` when absent. -/
theorem ws_query_params (https : Bool) (host session room : String)
    (hq : ∀ c ∈ host.data, c ≠ '?') :
    queryParams (wsUrl https host session room) =
      [("session_id", encodeURIComponent session),
       ("room", encodeURIComponent room)] ∧
    extractHandshake (queryParams (wsUrl https host session room)) =
      (some (encodeURIComponent session), encodeURIComponent room) ∧
    (initClient https host).room = "default" ∧
    (∀ (env : JsEnv) (a : ClientAction) (st : ClientState),
      (∀ r, a ≠ ClientAction.selectRoom r) →
      (stepClient env a st).room = st.room) ∧
    (∀ t, extractHandshake [("session", t)] = (some t, "default")) ∧
    (∀ t, extractHandshake [("session_id", t)] = (some t, "default")) := by
  have hp : ∀ c ∈ (if https then ("wss" : String) else "ws").data, c ≠ '?' := by
    cases https <;> decide
  have hquery := queryParams_build (if https then "wss" else "ws")
    host session room hp hq
  have hq2 : queryParams (wsUrl https host session room) =
      [("session_id", encodeURIComponent session),
       ("room", encodeURIComponent room)] := by
    unfold wsUrl
    exact hquery
  refine ⟨hq2, ?_, rfl, ?_, ?_, ?_⟩
  · rw [hq2]
    simp [extractHandshake, lookupParam]
  · intro env a st ha
    cases a with
    | selectRoom r => exact absurd rfl (ha r)
    | typeInput v => rfl
    | pressSend => rfl
    | recv f =>
      show (recvFrame env st f).room = st.room
      unfold recvFrame
      cases st.user <;> rfl
  · intro t
    simp [extractHandshake, lookupParam]
  · intro t
    simp [extractHandshake, lookupParam]

/-- C4 witness: a concrete session and room. -/
theorem ws_query_params_witness :
    queryParams (wsUrl false "localhost" "s1" "default") =
      [("session_id", "s1"), ("room", "default")] ∧
    extractHandshake (queryParams (wsUrl false "localhost" "s1" "default")) =
      (some "s1", "default") := by
  have h := ws_query_params false "localhost" "s1" "default" (by decide)
  have he1 : encodeURIComponent "s1" = "s1" := by decide
  have he2 : encodeURIComponent "default" = "default" := by decide
  constructor
  · rw [h.1, he1, he2]
  · rw [h.2.1, he1, he2]

/-- C5: a room change while a connection is live closes the existing socket
— which keeps the room it was created for, so a live connection is never
migrated between rooms in place — and opens a fresh, distinct socket to the
newly selected room. -/
theorem roomSwitch_teardown (st : ClientState) (r : String) (cid : Nat)
    (hact : st.active = some cid)
    (hsess : st.session.isSome = true)
    (hfresh : ∀ c ∈ st.conns, c.id < st.nextId) :
    ClientConn.mk st.nextId r true ∈ (changeRoom st r).conns ∧
    (changeRoom st r).active = some st.nextId ∧
    (∀ c ∈ st.conns, c.id = cid →
      ClientConn.mk c.id c.room false ∈ (changeRoom st r).conns) ∧
    (∀ c ∈ st.conns, c.id ≠ cid → c ∈ (changeRoom st r).conns) ∧
    (∀ c ∈ st.conns, c.id ≠ st.nextId) := by
  obtain ⟨hts, hst, rm, sess, usr, cns, act, nid, cht, ld, inp, ob⟩ := st
  simp only at hact hfresh hsess
  subst hact
  cases sess with
  | none => simp at hsess
  | some s =>
    have hcr : changeRoom
        (ClientState.mk hts hst rm (some s) usr cns (some cid) nid cht ld inp ob) r =
        { https := hts, host := hst, room := r, session := some s, user := usr,
          conns := closeConnList cns cid ++ [⟨nid, r, true⟩],
          active := some nid, nextId := nid + 1,
          chat := [RenderItem.sys ("Conectando a " ++ wsUrl hts hst s r)],
          lastDay := ld, inputVal := inp, outbox := ob } := by
      unfold changeRoom closeWs connectWS
      rfl
    rw [hcr]
    refine ⟨by simp, rfl, ?_, ?_, ?_⟩
    · intro c hc hcid
      simp only [List.mem_append]
      left
      unfold closeConnList
      rw [List.mem_map]
      exact ⟨c, hc, by simp [hcid]⟩
    · intro c hc hcid
      simp only [List.mem_append]
      left
      unfold closeConnList
      rw [List.mem_map]
      exact ⟨c, hc, by simp [hcid]⟩
    · intro c hc
      exact Nat.ne_of_lt (hfresh c hc)

/-- C5 witness: one open socket in the default room, switching to `sala2`. -/
theorem roomSwitch_teardown_witness :
    ClientConn.mk 1 "sala2" true ∈
      (changeRoom (ClientState.mk false "h" "default" (some "s") none
        [⟨0, "default", true⟩] (some 0) 1 [] none "" []) "sala2").conns ∧
    (changeRoom (ClientState.mk false "h" "default" (some "s") none
        [⟨0, "default", true⟩] (some 0) 1 [] none "" []) "sala2").active = some 1 ∧
    ClientConn.mk 0 "default" false ∈
      (changeRoom (ClientState.mk false "h" "default" (some "s") none
        [⟨0, "default", true⟩] (some 0) 1 [] none "" []) "sala2").conns := by
  have h := roomSwitch_teardown
    (ClientState.mk false "h" "default" (some "s") none
      [⟨0, "default", true⟩] (some 0) 1 [] none "" []) "sala2" 0
    rfl rfl (by decide)
  exact ⟨h.1, h.2.1, h.2.2.1 ⟨0, "default", true⟩ (by decide) rfl⟩

/-- C10: switching rooms wipes the chat log (only the fresh connecting line
remains) but leaves the `lastDay` separator state unchanged; a first message
in the new room whose formatted day equals that remembered day is rendered
without a day separator. -/
theorem roomSwitch_keeps_lastDay (env : JsEnv) (st : ClientState)
    (r s d txt : String) (us : User) (ts : Int)
    (hsess : st.session = some s)
    (hday : st.lastDay = some d)
    (hts : env.dayOf ts = d) :
    (changeRoom st r).lastDay = some d ∧
    (changeRoom st r).chat =
      [RenderItem.sys ("Conectando a " ++ wsUrl st.https st.host s r)] ∧
    (∀ u : User,
      onmessage env u (changeRoom st r).lastDay (some (Frame.message us txt ts)) =
        ([RenderItem.bubble us.name txt ts (us.email == u.email)], some d, [])) := by
  obtain ⟨hts2, hst, rm, sess, usr, cns, act, nid, cht, ld, inp, ob⟩ := st
  simp only at hsess hday
  subst hsess
  subst hday
  have hlast : ∀ r2 : String,
      (changeRoom (ClientState.mk hts2 hst rm (some s) usr cns act nid cht
        (some d) inp ob) r2).lastDay = some d ∧
      (changeRoom (ClientState.mk hts2 hst rm (some s) usr cns act nid cht
        (some d) inp ob) r2).chat =
        [RenderItem.sys ("Conectando a " ++ wsUrl hts2 hst s r2)] := by
    intro r2
    unfold changeRoom closeWs connectWS
    cases act <;> exact ⟨rfl, rfl⟩
  refine ⟨(hlast r).1, (hlast r).2, ?_⟩
  intro u
  rw [(hlast r).1]
  simp only [onmessage, addDaySeparator]
  rw [hts]
  simp

/-- C10 witness: `lastDay` remembers `lunes` across a room switch, and a
same-day message in the new room renders with no separator. -/
theorem roomSwitch_keeps_lastDay_witness :
    (changeRoom (ClientState.mk false "h" "default" (some "s") none [] none 0
        [RenderItem.sys "adios"] (some "lunes") "" []) "sala2").lastDay
      = some "lunes" ∧
    onmessage ⟨fun _ => "lunes", fun _ => 0⟩ ⟨"A", "a@x", none⟩
        (changeRoom (ClientState.mk false "h" "default" (some "s") none [] none 0
          [RenderItem.sys "adios"] (some "lunes") "" []) "sala2").lastDay
        (some (Frame.message ⟨"B", "b@x", none⟩ "hola" 5)) =
      ([RenderItem.bubble "B" "hola" 5 false], some "lunes", []) := by
  have h := roomSwitch_keeps_lastDay ⟨fun _ => "lunes", fun _ => 0⟩
    (ClientState.mk false "h" "default" (some "s") none [] none 0
      [RenderItem.sys "adios"] (some "lunes") "" []) "sala2" "s" "lunes" "hola"
    ⟨"B", "b@x", none⟩ 5 rfl rfl rfl
  refine ⟨h.1, ?_⟩
  rw [h.2.2 ⟨"A", "a@x", none⟩]
  decide

/-- One member of a room in the hub model: its connection id, the length of
the room's publish log at the moment it was registered, and the `message`
events delivered to it so far. -/
structure Member where
  id : Nat
  joinedAt : Nat
  delivered : List String
deriving DecidableEq

/-- Modelled from the spec: a room of the Broadcast Router / Room Registry
(the hub in `server.py` is not among the visible sources). The room has a
single ordered publish log; every publish is delivered synchronously, in
publish order, to every currently registered member (snapshot semantics). -/
structure RoomHub where
  log : List String
  members : List Member
deriving DecidableEq

/-- Operations on one room of the hub. -/
inductive HubOp
  | join (cid : Nat)
  | leave (cid : Nat)
  | publish (msg : String)

/-- Modelled from the spec: one step of the room hub. `join` registers a
connection (recording the current log position — history replay covers the
backlog); `leave` removes it; `publish` appends to the single ordered log
and to the delivered sequence of every current member. -/
def hubStep (st : RoomHub) (op : HubOp) : RoomHub :=
  match op with
  | .join cid => { st with members := ⟨cid, st.log.length, []⟩ :: st.members }
  | .leave cid => { st with members := st.members.filter (fun m => !(m.id = cid)) }
  | .publish msg =>
    { log := st.log ++ [msg],
      members := st.members.map (fun m => { m with delivered := m.delivered ++ [msg] }) }

/-- Run a sequence of room operations from an empty room. -/
def hubRun (ops : List HubOp) : RoomHub :=
  ops.foldl hubStep ⟨[], []⟩

/-- The delivery invariant of the hub model: every member has received
exactly the suffix of the publish log from its registration point. -/
def hubInv (st : RoomHub) : Prop :=
  ∀ m ∈ st.members, m.joinedAt ≤ st.log.length ∧
    m.delivered = st.log.drop m.joinedAt

theorem hubStep_inv (st : RoomHub) (op : HubOp) (h : hubInv st) :
    hubInv (hubStep st op) := by
  cases op with
  | join cid =>
    intro m hm
    simp only [hubStep] at hm ⊢
    rcases List.mem_cons.mp hm with rfl | hm2
    · exact ⟨Nat.le_refl _, by simp⟩
    · exact h m hm2
  | leave cid =>
    intro m hm
    simp only [hubStep] at hm ⊢
    exact h m (List.mem_of_mem_filter hm)
  | publish msg =>
    intro m hm
    simp only [hubStep, List.mem_map] at hm ⊢
    obtain ⟨m0, hm0, rfl⟩ := hm
    obtain ⟨hle, hdel⟩ := h m0 hm0
    constructor
    · simp only [List.length_append, List.length_cons, List.length_nil]
      omega
    · simp only [hdel, List.drop_append_of_le_length hle]

theorem hubRun_inv (ops : List HubOp) : hubInv (hubRun ops) := by
  have hall : ∀ st : RoomHub, hubInv st → hubInv (ops.foldl hubStep st) := by
    induction ops with
    | nil => exact fun st h => h
    | cons op rest ih =>
      intro st h
      exact ih (hubStep st op) (hubStep_inv st op h)
  refine hall ⟨[], []⟩ ?_
  intro m hm
  exact absurd hm (List.not_mem_nil m)

/-- C2 (spec-modelled): after any sequence of room operations, two members
registered at the same publication point have identical delivered `message`
sequences, and each member's delivered sequence is exactly a suffix of the
room's ordered publish log — i.e. it matches publication order. -/
theorem broadcast_order_consistent (ops : List HubOp) (m1 m2 : Member)
    (h1 : m1 ∈ (hubRun ops).members) (h2 : m2 ∈ (hubRun ops).members)
    (hj : m1.joinedAt = m2.joinedAt) :
    m1.delivered = m2.delivered ∧
    m1.delivered = (hubRun ops).log.drop m1.joinedAt := by
  have hinv := hubRun_inv ops
  obtain ⟨_, hd1⟩ := hinv m1 h1
  obtain ⟨_, hd2⟩ := hinv m2 h2
  refine ⟨?_, hd1⟩
  rw [hd1, hd2, hj]

/-- C2 witness: two members joining together, two publishes. -/
theorem broadcast_order_consistent_witness :
    Member.mk 1 0 ["hola", "adios"] ∈
      (hubRun [HubOp.join 1, HubOp.join 2, HubOp.publish "hola",
        HubOp.publish "adios"]).members ∧
    Member.mk 2 0 ["hola", "adios"] ∈
      (hubRun [HubOp.join 1, HubOp.join 2, HubOp.publish "hola",
        HubOp.publish "adios"]).members ∧
    (Member.mk 1 0 ["hola", "adios"]).delivered =
      (hubRun [HubOp.join 1, HubOp.join 2, HubOp.publish "hola",
        HubOp.publish "adios"]).log.drop (Member.mk 1 0 ["hola", "adios"]).joinedAt := by
  have h := broadcast_order_consistent
    [HubOp.join 1, HubOp.join 2, HubOp.publish "hola", HubOp.publish "adios"]
    ⟨1, 0, ["hola", "adios"]⟩ ⟨2, 0, ["hola", "adios"]⟩
    (by decide) (by decide) rfl
  exact ⟨by decide, by decide, h.2⟩

/-- Phase of one hub connection: before authentication, registered in the
room, or closed. -/
inductive ConnPhase
  | preAuth
  | registered
  | closedP
deriving DecidableEq

/-- Events the hub can deliver to one connection. -/
inductive ConnEvent
  | history (lines : List String)
  | join (u : String)
  | leave (u : String)
  | message (u : String) (text : String)
deriving DecidableEq

/-- Payloads routed by the Broadcast Router: join, leave and message only —
history is never broadcast, it is emitted directly at registration. -/
inductive BCast
  | join (u : String)
  | leave (u : String)
  | message (u : String) (text : String)

/-- Embed a broadcast payload into the delivered-event type. -/
def BCast.toEvent : BCast → ConnEvent
  | .join u => .join u
  | .leave u => .leave u
  | .message u t => .message u t

/-- A connection as seen from the hub: its phase and the events delivered
to it so far. -/
structure ConnView where
  phase : ConnPhase
  received : List ConnEvent
deriving DecidableEq

/-- Operations affecting one connection of the hub. -/
inductive ConnOp
  | authOk (lines : List String)
  | authFail
  | broadcast (b : BCast)
  | closeConn

/-- Modelled from the spec: the per-connection state machine of the
Connection Hub (`server.py` is not among the visible sources). Successful
authentication registers the connection and immediately emits the single
`history` event; failed authentication closes it with no delivery; room
broadcasts reach only registered connections; closing stops delivery. -/
def connStep (st : ConnView) (op : ConnOp) : ConnView :=
  match op, st.phase with
  | .authOk lines, .preAuth => ⟨.registered, st.received ++ [.history lines]⟩
  | .authOk _, _ => st
  | .authFail, .preAuth => ⟨.closedP, st.received⟩
  | .authFail, _ => st
  | .broadcast b, .registered => ⟨.registered, st.received ++ [b.toEvent]⟩
  | .broadcast _, _ => st
  | .closeConn, _ => ⟨.closedP, st.received⟩

/-- Run a sequence of hub operations against a fresh connection. -/
def connRun (ops : List ConnOp) : ConnView :=
  ops.foldl connStep ⟨.preAuth, []⟩

/-- Whether an event is a history event. -/
def isHistEvent : ConnEvent → Bool
  | .history _ => true
  | _ => false

theorem BCast.toEvent_not_hist (b : BCast) : isHistEvent b.toEvent = false := by
  cases b <;> rfl

/-- The history invariant of one connection: nothing is delivered before
registration, and everything delivered afterwards is one leading history
event followed only by non-history events. -/
def connInv (st : ConnView) : Prop :=
  match st.phase with
  | .preAuth => st.received = []
  | .registered => ∃ l rest, st.received = ConnEvent.history l :: rest ∧
      ∀ e ∈ rest, isHistEvent e = false
  | .closedP => st.received = [] ∨ ∃ l rest,
      st.received = ConnEvent.history l :: rest ∧
      ∀ e ∈ rest, isHistEvent e = false

theorem connStep_inv (st : ConnView) (op : ConnOp) (h : connInv st) :
    connInv (connStep st op) := by
  obtain ⟨ph, evs⟩ := st
  cases op with
  | authOk lines =>
    cases ph with
    | preAuth =>
      simp only [connInv] at h
      subst h
      exact ⟨lines, [], rfl, by simp⟩
    | registered => exact h
    | closedP => exact h
  | authFail =>
    cases ph with
    | preAuth =>
      simp only [connInv] at h ⊢
      exact Or.inl h
    | registered => exact h
    | closedP => exact h
  | broadcast b =>
    cases ph with
    | preAuth => exact h
    | registered =>
      simp only [connInv] at h ⊢
      obtain ⟨l, rest, heq, hrest⟩ := h
      refine ⟨l, rest ++ [b.toEvent], by rw [heq]; rfl, ?_⟩
      intro e he
      rcases List.mem_append.mp he with hm | hm
      · exact hrest e hm
      · rw [List.mem_singleton.mp hm]
        exact BCast.toEvent_not_hist b
    | closedP => exact h
  | closeConn =>
    cases ph with
    | preAuth =>
      simp only [connInv] at h ⊢
      exact Or.inl h
    | registered =>
      simp only [connInv] at h ⊢
      exact Or.inr h
    | closedP => exact h

theorem connRun_inv (ops : List ConnOp) : connInv (connRun ops) := by
  have hall : ∀ st : ConnView, connInv st → connInv (ops.foldl connStep st) := by
    induction ops with
    | nil => exact fun st h => h
    | cons op rest ih =>
      intro st h
      exact ih (connStep st op) (connStep_inv st op h)
  exact hall ⟨.preAuth, []⟩ rfl

/-- C6 (spec-modelled): whenever a history event was delivered to a
connection, it is the very first event that reached it (so it precedes
every join, leave and message), and it is the only history event ever
delivered (at most once per connection, at the registration point). -/
theorem history_at_most_once_first (ops : List ConnOp) (l : List String)
    (hmem : ConnEvent.history l ∈ (connRun ops).received) :
    (∃ rest, (connRun ops).received = ConnEvent.history l :: rest ∧
      ∀ e ∈ rest, isHistEvent e = false) ∧
    ((connRun ops).received.filter isHistEvent) = [ConnEvent.history l] := by
  have hinv := connRun_inv ops
  have hshape : ∃ l2 rest, (connRun ops).received = ConnEvent.history l2 :: rest ∧
      ∀ e ∈ rest, isHistEvent e = false := by
    unfold connInv at hinv
    cases hph : (connRun ops).phase with
    | preAuth =>
      rw [hph] at hinv
      rw [hinv] at hmem
      exact absurd hmem (List.not_mem_nil _)
    | registered =>
      rw [hph] at hinv
      exact hinv
    | closedP =>
      rw [hph] at hinv
      rcases hinv with hnil | hs
      · rw [hnil] at hmem
        exact absurd hmem (List.not_mem_nil _)
      · exact hs
  obtain ⟨l2, rest, heq, hrest⟩ := hshape
  have hl : l2 = l := by
    rw [heq] at hmem
    rcases List.mem_cons.mp hmem with hh | hm
    · exact (ConnEvent.history.injEq l l2).mp (by rw [hh]) |>.symm ▸ rfl
    · exact absurd (hrest _ hm) (by simp [isHistEvent])
  subst hl
  refine ⟨⟨rest, heq, hrest⟩, ?_⟩
  rw [heq]
  rw [List.filter_cons_of_pos (by rfl)]
  rw [List.filter_eq_nil_iff.mpr (by intro e he; simp [hrest e he])]

/-- C6 witness: an authenticated connection that then receives a join and a
message has the history event first and only once. -/
theorem history_at_most_once_first_witness :
    (∃ rest, (connRun [ConnOp.authOk ["vieja"],
        ConnOp.broadcast (BCast.join "ana"),
        ConnOp.broadcast (BCast.message "ana" "hola")]).received =
          ConnEvent.history ["vieja"] :: rest ∧
      ∀ e ∈ rest, isHistEvent e = false) ∧
    ((connRun [ConnOp.authOk ["vieja"],
        ConnOp.broadcast (BCast.join "ana"),
        ConnOp.broadcast (BCast.message "ana" "hola")]).received.filter
          isHistEvent) = [ConnEvent.history ["vieja"]] :=
  history_at_most_once_first
    [ConnOp.authOk ["vieja"], ConnOp.broadcast (BCast.join "ana"),
     ConnOp.broadcast (BCast.message "ana" "hola")] ["vieja"] (by decide)

/-- Modelled from the spec: connection teardown in the hub. If the
connection is still registered it is removed from the room registry and one
`leave` broadcast is produced; otherwise nothing happens. Returns the new
registry and the list of leave broadcasts produced. -/
def teardown (registry : List Nat) (cid : Nat) : List Nat × List Nat :=
  if cid ∈ registry then (registry.filter (fun x => !(x = cid)), [cid])
  else (registry, [])

theorem filter_ne_length (l : List Nat) (cid : Nat) (hnd : l.Nodup)
    (hm : cid ∈ l) :
    (l.filter (fun x => !(x = cid))).length + 1 = l.length := by
  induction l with
  | nil => exact absurd hm (List.not_mem_nil cid)
  | cons a as ih =>
    obtain ⟨hna, hnd2⟩ := List.nodup_cons.mp hnd
    rcases List.mem_cons.mp hm with rfl | hm2
    · have hkeep : as.filter (fun x => !(x = cid)) = as := by
        apply List.filter_eq_self.mpr
        intro x hx
        simp only [Bool.not_eq_eq_eq_not, Bool.not_true, decide_eq_false_iff_not]
        exact fun he => hna (he ▸ hx)
      rw [List.filter_cons_of_neg (by simp)]
      rw [hkeep]
      simp
    · have hne : a ≠ cid := fun he => hna (he ▸ hm2)
      rw [List.filter_cons_of_pos (by simp [hne])]
      simp only [List.length_cons]
      rw [← ih hnd2 hm2]

/-- C7 (spec-modelled): for a connection still registered (it reached the
Active state), tearing down twice produces exactly one leave broadcast and
exactly one registry removal: the first call removes the connection and
broadcasts one leave, the second call broadcasts nothing and leaves the
registry untouched. -/
theorem teardown_idempotent (registry : List Nat) (cid : Nat)
    (hm : cid ∈ registry) (hnd : registry.Nodup) :
    (teardown registry cid).2 = [cid] ∧
    (teardown (teardown registry cid).1 cid).2 = [] ∧
    (teardown (teardown registry cid).1 cid).1 = (teardown registry cid).1 ∧
    (teardown registry cid).1.length + 1 = registry.length ∧
    cid ∉ (teardown registry cid).1 := by
  have h1 : teardown registry cid =
      (registry.filter (fun x => !(x = cid)), [cid]) := by
    unfold teardown
    rw [if_pos hm]
  have hout : cid ∉ registry.filter (fun x => !(x = cid)) := by
    intro hin
    have := (List.mem_filter.mp hin).2
    simp at this
  have h2 : teardown (registry.filter (fun x => !(x = cid))) cid =
      (registry.filter (fun x => !(x = cid)), []) := by
    unfold teardown
    rw [if_neg hout]
  rw [h1]
  exact ⟨rfl, by rw [h2], by rw [h2], filter_ne_length registry cid hnd hm, hout⟩

/-- C7 witness: a registry of two connections, tearing down connection 1
twice. -/
theorem teardown_idempotent_witness :
    (teardown [1, 2] 1).2 = [1] ∧
    (teardown (teardown [1, 2] 1).1 1).2 = [] ∧
    (teardown (teardown [1, 2] 1).1 1).1 = (teardown [1, 2] 1).1 ∧
    (teardown [1, 2] 1).1.length + 1 = ([1, 2] : List Nat).length ∧
    1 ∉ (teardown [1, 2] 1).1 :=
  teardown_idempotent [1, 2] 1 (by decide) (by decide)

end WorkChat
